import Mathlib

/-!
# Verification of feflow/builder-webpack-core (`src/lib/core.js`)

A shallow embedding of the string- and list-level logic of `BuilderCore`:

* `setOutput` (output filename templates),
* `setMultiplePage` (multi-page entry planning),
* `setAlias` (import-alias discovery),
* `setOffline` (`pathMapper` and `beforeAddBuffer`, the offline-package
  path remapping and markup/content rewriting).

Strings are modelled as `List Char`.  JavaScript's `String.prototype.replace`
is modelled faithfully:

* with a string pattern it replaces only the first occurrence
  (`replaceFirst` below);
* with a `/.../g` regex whose pattern is a literal it replaces all
  non-overlapping occurrences scanning left to right, continuing after each
  match in the *original* string (`removeAll` below);
* the two domain-substitution regexes
  `//<base>/([^"'\x29\x60]+)(["'\x60\x29])` are modelled by `domainSub`: at
  each position the engine either matches `//<base>/`, a maximal nonempty run
  of non-terminator characters, and a terminator character (one of the four
  characters double quote, single quote, closing paren, backtick), or moves
  one character forward;
* the non-global regex `(<script.*)integrity=".*?"` is modelled by
  `removeIntegrity`: the match starts at the leftmost occurrence of
  `<script` from which the rest of the pattern can complete on the same
  line (`.` does not match a newline), the greedy `.*` makes the engine pick
  the *last* `integrity="` on that line that is followed by a closing quote,
  and the lazy `.*?` picks the *first* closing quote after it; `$1` keeps
  everything before that `integrity="`.

`Date.now()` is modelled as an explicit `now : Nat` parameter;
`JSON.stringify({version: now})` produces `{"version":<decimal digits>}`
(`packScript` below).  Node's `path.join` is modelled for inputs without
`.`/`..` segments: concatenate with a separator and collapse repeated
slashes (`pathJoin`).

In `setOffline` the second substitution regex is built from the configured
`cdn` and `product` strings by interpolation; the embedding treats those
configuration strings as literal text (for configuration values without
regex metacharacters, which includes every scenario in the claims, the two
readings agree).
-/

namespace BuilderCore

/-! ## Basic string (List Char) machinery -/

/-- Boolean substring test, as JavaScript's `indexOf(pat) !== -1`
(the empty pattern is found in every string). -/
def containsSub (pat : List Char) : List Char → Bool
  | [] => pat.isEmpty
  | c :: rest => pat.isPrefixOf (c :: rest) || containsSub pat rest

/-- JavaScript `s.replace(pat, repl)` with a *string* pattern: replace the
first occurrence only.  An empty pattern matches at position 0. -/
def replaceFirst (pat repl : List Char) : List Char → List Char
  | [] => if pat.isEmpty then repl else []
  | c :: rest =>
    if pat.isPrefixOf (c :: rest) then repl ++ (c :: rest).drop pat.length
    else c :: replaceFirst pat repl rest

/-- Fuel-driven worker for `removeAll`; the fuel is an upper bound on the
number of scanning steps (each step consumes at least one character). -/
def removeAllGo (pat : List Char) : Nat → List Char → List Char
  | _, [] => []
  | 0, s => s
  | fuel + 1, c :: rest =>
    if pat.isPrefixOf (c :: rest) && !pat.isEmpty then
      removeAllGo pat fuel ((c :: rest).drop pat.length)
    else c :: removeAllGo pat fuel rest

/-- JavaScript `s.replace(/pat/g, '')` with a literal pattern: delete all
non-overlapping occurrences scanning left to right (the scan continues after
each match in the original string, so deletions can re-assemble new
occurrences in the output — they are not re-scanned). -/
def removeAll (pat s : List Char) : List Char := removeAllGo pat s.length s

theorem containsSub_nil (pat : List Char) : containsSub pat [] = pat.isEmpty := rfl

theorem containsSub_cons (pat : List Char) (c : Char) (rest : List Char) :
    containsSub pat (c :: rest) = (pat.isPrefixOf (c :: rest) || containsSub pat rest) := rfl

theorem containsSub_eq_false_tail {pat : List Char} {c : Char} {rest : List Char}
    (h : containsSub pat (c :: rest) = false) : containsSub pat rest = false := by
  rw [containsSub_cons] at h
  exact (Bool.or_eq_false_iff.mp h).2

theorem not_isPrefixOf_of_containsSub_eq_false {pat : List Char} {c : Char} {rest : List Char}
    (h : containsSub pat (c :: rest) = false) : pat.isPrefixOf (c :: rest) = false := by
  rw [containsSub_cons] at h
  exact (Bool.or_eq_false_iff.mp h).1

/-- If the pattern never occurs, global deletion is the identity. -/
theorem removeAllGo_eq_self {pat : List Char} :
    ∀ (fuel : Nat) (s : List Char), containsSub pat s = false → removeAllGo pat fuel s = s := by
  intro fuel
  induction fuel with
  | zero => intro s _ ; cases s <;> rfl
  | succ n ih =>
    intro s hs
    cases s with
    | nil => rfl
    | cons c rest =>
      rw [removeAllGo, if_neg, ih rest (containsSub_eq_false_tail hs)]
      simp [not_isPrefixOf_of_containsSub_eq_false hs]

theorem removeAll_eq_self {pat s : List Char} (h : containsSub pat s = false) :
    removeAll pat s = s := removeAllGo_eq_self s.length s h

/-! ## The domain-substitution regexes (rules 1 and 2 of `beforeAddBuffer`) -/

/-- The terminator character class `["'\x60\x29]` of the two
domain-substitution regexes: double quote, single quote, backtick,
closing paren. -/
def isTerm (c : Char) : Bool :=
  c = Char.ofNat 34 || c = Char.ofNat 39 || c = Char.ofNat 96 || c = Char.ofNat 41

/-- The full literal prefix `//<base>/` of a domain-substitution regex. -/
def subPre (base : List Char) : List Char := '/' :: '/' :: (base ++ ['/'])

/-- Attempt to match `//<base>/([^"'\x29\x60]+)(["'\x60\x29])` at the head of
`s`.  On success returns the captured run, the terminator character, and the
rest of the string after the match. -/
def matchSub (base s : List Char) : Option (List Char × Char × List Char) :=
  if (subPre base).isPrefixOf s then
    let rest := s.drop (subPre base).length
    let run := rest.takeWhile (fun c => !isTerm c)
    match rest.drop run.length with
    | [] => none
    | t :: tail => if run.isEmpty then none else some (run, t, tail)
  else none

/-- Fuel-driven worker for `domainSub`. -/
def domainSubGo (base dom : List Char) : Nat → List Char → List Char
  | _, [] => []
  | 0, s => s
  | fuel + 1, c :: rest =>
    match matchSub base (c :: rest) with
    | some (run, t, tail) =>
      '/' :: '/' :: (dom ++ '/' :: (run ++ t :: domainSubGo base dom fuel tail))
    | none => c :: domainSubGo base dom fuel rest

/-- JavaScript
`s.replace(new RegExp("//<base>/([^\"'\x29\x60]+)([\"'\x60\x29])", 'g'), "//<dom>/$1$2")`:
global left-to-right replacement; a failed attempt advances one character, a
successful match continues after its end. -/
def domainSub (base dom s : List Char) : List Char := domainSubGo base dom s.length s

theorem matchSub_eq_none_of_no_start {base s : List Char}
    (h : (subPre base).isPrefixOf s = false) : matchSub base s = none := by
  rw [matchSub, if_neg]
  simp [h]

/-- If the literal prefix `//<base>/` never occurs, the substitution is the
identity. -/
theorem domainSubGo_eq_self {base dom : List Char} :
    ∀ (fuel : Nat) (s : List Char), containsSub (subPre base) s = false →
      domainSubGo base dom fuel s = s := by
  intro fuel
  induction fuel with
  | zero => intro s _ ; cases s <;> rfl
  | succ n ih =>
    intro s hs
    cases s with
    | nil => rfl
    | cons c rest =>
      rw [domainSubGo,
        matchSub_eq_none_of_no_start (not_isPrefixOf_of_containsSub_eq_false hs),
        ih rest (containsSub_eq_false_tail hs)]

theorem domainSub_eq_self {base dom s : List Char}
    (h : containsSub (subPre base) s = false) : domainSub base dom s = s :=
  domainSubGo_eq_self s.length s h

/-! ## The integrity-stripping regex (rule 5 of `beforeAddBuffer`) -/

def scriptTok : List Char := "<script".toList

def intTok : List Char := "integrity=\"".toList

/-- Skip to just after the first double quote, if any (the lazy `.*?` of
`integrity=".*?"` together with its closing quote). -/
def splitQuote : List Char → Option (List Char)
  | [] => none
  | c :: rest => if c = Char.ofNat 34 then some rest else splitQuote rest

/-- Find the *last* position in `l` at which `integrity="` occurs followed
(somewhere later) by a closing double quote — the position the greedy `.*`
of `(<script.*)integrity=".*?"` makes the engine take.  Returns the part of
`l` before that `integrity="` and the part after the closing quote. -/
def findLastInt : List Char → Option (List Char × List Char)
  | [] => none
  | c :: rest =>
    match findLastInt rest with
    | some (b, a) => some (c :: b, a)
    | none =>
      if intTok.isPrefixOf (c :: rest) then
        match splitQuote ((c :: rest).drop intTok.length) with
        | some tail => some ([], tail)
        | none => none
      else none

/-- Fuel-driven worker for `removeIntegrity`. -/
def removeIntegrityGo : Nat → List Char → List Char
  | _, [] => []
  | 0, s => s
  | fuel + 1, c :: rest =>
    if scriptTok.isPrefixOf (c :: rest) then
      match findLastInt ((c :: rest).takeWhile (fun x => !(x = '\n'))) with
      | some (b, a) =>
        b ++ a ++ (c :: rest).drop (((c :: rest).takeWhile (fun x => !(x = '\n'))).length)
      | none => c :: removeIntegrityGo fuel rest
    else c :: removeIntegrityGo fuel rest

/-- JavaScript `s.replace(/(<script.*)integrity=".*?"/, '$1')`: non-global;
the leftmost `<script` from which the pattern completes on one line starts
the match, the greedy `.*` picks the last completable `integrity="` on that
line, the lazy `.*?` ends at the first following quote, and `$1` keeps
everything before the `integrity="`. -/
def removeIntegrity (s : List Char) : List Char := removeIntegrityGo s.length s

theorem isPrefixOf_append_right {p a : List Char} (b : List Char)
    (h : p.isPrefixOf a = true) : p.isPrefixOf (a ++ b) = true := by
  rw [List.isPrefixOf_iff_prefix] at h ⊢
  exact h.trans (List.prefix_append a b)

theorem containsSub_append_left {pat a : List Char} (b : List Char)
    (h : containsSub pat a = true) : containsSub pat (a ++ b) = true := by
  induction a with
  | nil =>
    rw [containsSub_nil] at h
    cases b with
    | nil => simpa [containsSub_nil] using h
    | cons c rest =>
      have : pat = [] := by simpa using h
      simp [this, containsSub_cons, List.isPrefixOf]
  | cons c rest ih =>
    rw [containsSub_cons] at h
    rcases Bool.or_eq_true_iff.mp h with h1 | h2
    · rw [List.cons_append, containsSub_cons]
      exact Bool.or_eq_true_iff.mpr (Or.inl (isPrefixOf_append_right b h1))
    · rw [List.cons_append, containsSub_cons]
      exact Bool.or_eq_true_iff.mpr (Or.inr (ih h2))

theorem containsSub_of_takeWhile {pat l : List Char} (p : Char → Bool)
    (h : containsSub pat (l.takeWhile p) = true) : containsSub pat l = true := by
  have : containsSub pat (l.takeWhile p ++ l.dropWhile p) = true := containsSub_append_left (l.dropWhile p) h
  rwa [List.takeWhile_append_dropWhile] at this

theorem splitQuote_isSome_containsSub {l : List Char} {tail : List Char}
    (h : splitQuote l = some tail) : containsSub [Char.ofNat 34] l = true := by
  induction l with
  | nil => simp [splitQuote] at h
  | cons c rest ih =>
    rw [splitQuote] at h
    by_cases hc : c = Char.ofNat 34
    · rw [containsSub_cons]
      simp [List.isPrefixOf, hc]
    · rw [if_neg hc] at h
      rw [containsSub_cons]
      exact Bool.or_eq_true_iff.mpr (Or.inr (ih h))

theorem findLastInt_eq_none {l : List Char} (h : containsSub intTok l = false) :
    findLastInt l = none := by
  induction l with
  | nil => rfl
  | cons c rest ih =>
    rw [findLastInt, ih (containsSub_eq_false_tail h)]
    simp [not_isPrefixOf_of_containsSub_eq_false h]

/-- If `integrity="` never occurs, the integrity strip is the identity. -/
theorem removeIntegrityGo_eq_self :
    ∀ (fuel : Nat) (s : List Char), containsSub intTok s = false →
      removeIntegrityGo fuel s = s := by
  intro fuel
  induction fuel with
  | zero => intro s _ ; cases s <;> rfl
  | succ n ih =>
    intro s hs
    cases s with
    | nil => rfl
    | cons c rest =>
      have hline : containsSub intTok ((c :: rest).takeWhile (fun x => !(x = '\n'))) = false := by
        cases h : containsSub intTok ((c :: rest).takeWhile (fun x => !(x = '\n'))) with
        | false => rfl
        | true =>
          have := containsSub_of_takeWhile (fun x => !(x = '\n')) h
          rw [this] at hs
          exact absurd hs (by simp)
      rw [removeIntegrityGo, findLastInt_eq_none hline, ih rest (containsSub_eq_false_tail hs)]
      by_cases hsc : scriptTok.isPrefixOf (c :: rest) <;> simp [hsc]

theorem removeIntegrity_eq_self {s : List Char} (h : containsSub intTok s = false) :
    removeIntegrity s = s := removeIntegrityGo_eq_self s.length s h

/-! ## Version injection (rule 6 of `beforeAddBuffer`) -/

/-- One decimal digit as a character. -/
def digitChar (d : Nat) : Char := Char.ofNat (48 + d)

/-- Fuel-driven most-significant-first decimal digits. -/
def natDigitsGo : Nat → Nat → List Char
  | 0, _ => []
  | fuel + 1, n =>
    if n < 10 then [digitChar n]
    else natDigitsGo fuel (n / 10) ++ [digitChar (n % 10)]

/-- Decimal representation of a natural number, as JavaScript's
`JSON.stringify` renders the integer timestamp. -/
def natChars (n : Nat) : List Char := natDigitsGo (n + 1) n

/-- The inline script `<script>var pack = {"version":<now>}</script>` that
rule 6 prepends to the first `<script` of the document
(`JSON.stringify({version: Date.now()})` inlined). -/
def packScript (now : Nat) : List Char :=
  "<script>var pack = \x7b\"version\":".toList ++ natChars now ++ "\x7d</script>".toList

/-- JavaScript
`s.replace(/(<script)/, '<script>var pack = ' + JSON.stringify({version: now}) + '</script>$1')`:
insert the pack script before the first occurrence of `<script`. -/
def injectVersion (now : Nat) (s : List Char) : List Char :=
  replaceFirst scriptTok (packScript now ++ scriptTok) s

/-! ## `setOffline` — the offline-package plugin configuration

`core.js` lines 572–613.  The configuration strings of the call are gathered
in `OfflineCfg`; `assetsPfx`/`htmlPfx` are the source's
`assetsPrefix`/`htmlPrefix` parameters. -/

structure OfflineCfg where
  assetsPfx : List Char
  htmlPfx : List Char
  cdnUrl : List Char
  serverUrl : List Char
  domain : List Char
  cdn : List Char
  product : List Char

/-- The hard-coded platform base of rule 1: `11.url.cn/now`. -/
def base11 : List Char := "11.url.cn/now".toList

/-- The interpolated base `<cdn>/<product>` of rule 2. -/
def bizBase (cfg : OfflineCfg) : List Char := cfg.cdn ++ '/' :: cfg.product

def crossLit : List Char := "crossorigin=\"anonymous\"".toList

def bidLit : List Char := "?_bid=152".toList

/-- Rules 1–5 of the markup branch of `beforeAddBuffer`, in source order:
platform-base domain substitution, business-asset domain substitution,
`crossorigin="anonymous"` removal, `?_bid=152` removal, integrity strip. -/
def markupPre (cfg : OfflineCfg) (source : List Char) : List Char :=
  removeIntegrity (removeAll bidLit (removeAll crossLit
    (domainSub (bizBase cfg) cfg.domain (domainSub base11 cfg.domain source))))

/-- The whole markup branch of `beforeAddBuffer` (rules 1–6). -/
def markupRewrite (cfg : OfflineCfg) (now : Nat) (source : List Char) : List Char :=
  injectVersion now (markupPre cfg source)

/-- `setOffline`'s `beforeAddBuffer(source, assetPath)` (`core.js` 587–611):
markup files (paths containing `htmlPrefix`) get the full rule chain, all
other files only the business-asset domain substitution. -/
def beforeAddBuffer (cfg : OfflineCfg) (now : Nat) (source assetPath : List Char) : List Char :=
  if containsSub cfg.htmlPfx assetPath then markupRewrite cfg now source
  else domainSub (bizBase cfg) cfg.domain source

/-! ## `path.join` and `setOffline`'s `pathMapper` -/

/-- Collapse runs of `/` to a single `/` (the normalization Node's
`path.join` applies to inputs without `.`/`..` segments). -/
def collapseSl : List Char → List Char
  | [] => []
  | [c] => [c]
  | a :: b :: rest =>
    if a = '/' && b = '/' then collapseSl (b :: rest) else a :: collapseSl (b :: rest)

/-- Node `path.join(a, b)` for segments without `.`/`..`: concatenate with a
separator and collapse repeated slashes; an empty part is skipped. -/
def pathJoin (a b : List Char) : List Char :=
  if a.isEmpty then collapseSl b
  else if b.isEmpty then collapseSl a
  else collapseSl (a ++ '/' :: b)

/-- `setOffline`'s `pathMapper(assetPath)` (`core.js` 578–586): strip the
first occurrence of `htmlPrefix` (if the path contains it), else the first
occurrence of `assetsPrefix` (if the path contains it), then join under
`serverUrl` with its first `//` removed. -/
def pathMapper (cfg : OfflineCfg) (assetPath : List Char) : List Char :=
  pathJoin (replaceFirst ('/' :: '/' :: []) [] cfg.serverUrl)
    (if containsSub cfg.htmlPfx assetPath then replaceFirst cfg.htmlPfx [] assetPath
     else if containsSub cfg.assetsPfx assetPath then replaceFirst cfg.assetsPfx [] assetPath
     else assetPath)

/-! ## `setOutput` — output filename templates (`core.js` 77–97) -/

structure OutputCfg where
  filename : List Char
  pathDir : List Char
  publicPath : List Char
  crossOriginLoading : List Char

/-- `outDir || 'public'`: JavaScript falsy default (absent or empty string
falls back to `public`). -/
def outDirOr (outDir : Option (List Char)) : List Char :=
  match outDir with
  | none => "public".toList
  | some d => if d.isEmpty then "public".toList else d

/-- `BuilderCore.setOutput(useHash, pathPrefix, publicPath, outDir)`:
the script filename template `${filename}[name]${hash}.js?_bid=152` with the
optional prefix and chunk-hash parts, the output path
`path.join(projectRoot, outDir + '/')`, and `crossOriginLoading:
'anonymous'`.  `pathPfx` is the source's `pathPrefix` parameter. -/
def setOutput (projectRoot : List Char) (useHash : Bool)
    (pathPfx publicPath : List Char) (outDir : Option (List Char)) : OutputCfg :=
  { filename :=
      (if pathPfx.isEmpty then [] else pathPfx ++ ['/']) ++ "[name]".toList ++
        (if useHash then "_[chunkhash:8]".toList else []) ++ ".js?_bid=152".toList
    pathDir := pathJoin projectRoot (outDirOr outDir ++ ['/'])
    publicPath := publicPath
    crossOriginLoading := "anonymous".toList }

/-! ## Association lists with JavaScript object-assignment semantics

`newEntry[pageName] = entryFile` and `aliasObject[k] = v` assign into a plain
object: an existing key is overwritten in place, a new key is appended in
insertion order. -/

def upsert (k v : List Char) : List (List Char × List Char) → List (List Char × List Char)
  | [] => [(k, v)]
  | (k2, v2) :: rest => if k2 = k then (k, v) :: rest else (k2, v2) :: upsert k v rest

def lookupA : List (List Char × List Char) → List Char → Option (List Char)
  | [], _ => none
  | (k2, v) :: rest, k => if k2 = k then some v else lookupA rest k

/-! ## `setMultiplePage` — multi-page entry planning (`core.js` 493–539) -/

/-- The fixed html-minifier options object of `setMultiplePage`. -/
structure MinifyOpts where
  html5 : Bool
  collapseWhitespace : Bool
  preserveLineBreaks : Bool
  minifyCSS : Bool
  minifyJS : Bool
  removeComments : Bool
deriving DecidableEq

def minifyOn : MinifyOpts :=
  { html5 := true, collapseWhitespace := true, preserveLineBreaks := false,
    minifyCSS := true, minifyJS := true, removeComments := false }

/-- One `HtmlWebpackPlugin` instantiation, as configured by
`setMultiplePage`.  `assetsPfx` is the source's `assetsPrefix` option;
`minify` is the options object or `false` (`none`); `chunks` may hold the
JavaScript `null` when the page-name regex did not match. -/
structure HtmlPlugin where
  inlineSource : Option (List Char)
  template : List Char
  filename : List Char
  chunks : List (Option (List Char))
  assetsPfx : List Char
  inject : Bool
  minify : Option MinifyOpts
deriving DecidableEq

def pagesMark : List Char := "/pages/".toList

/-- `entry.match(/\/pages\/(.*)/)`: the capture of the leftmost match —
everything after the first occurrence of `/pages/`, up to the end of that
line (`.` does not match a newline); `none` when the path never contains
`/pages/`. -/
def pageNameOf : List Char → Option (List Char)
  | [] => none
  | c :: rest =>
    if pagesMark.isPrefixOf (c :: rest) then
      some (((c :: rest).drop pagesMark.length).takeWhile (fun x => !(x = '\n')))
    else pageNameOf rest

/-- How the page name appears when used as an object key or inside a
template literal: JavaScript renders `null` as the string `"null"`. -/
def jsKey : Option (List Char) → List Char
  | none => "null".toList
  | some s => s

/-- The JavaScript object key under which a page directory's entry is
stored: the regex capture, or the string `"null"` when the convention did
not match. -/
def pageKey (e : List Char) : List Char := jsKey (pageNameOf e)

/-- The non-filesystem inputs of `setMultiplePage`, plus the (synchronous,
point-in-time) `fs.existsSync` oracle.  `assetsPfx`/`htmlPfx` are the
source's `assetsPrefix`/`htmlPrefix` parameters. -/
structure PageCtx where
  projectRoot : List Char
  minifyHtml : Bool
  inject : Bool
  inlineCSS : Bool
  assetsPfx : List Char
  htmlPfx : List Char
  fsExists : List Char → Bool

/-- `const entryFile = entry + '/init.js'`. -/
def entryFileOf (entry : List Char) : List Char := entry ++ "/init.js".toList

/-- The `HtmlWebpackPlugin` configuration pushed for one page directory
(`core.js` 516–535). -/
def mkPlugin (ctx : PageCtx) (entry : List Char) : HtmlPlugin :=
  { inlineSource := if ctx.inlineCSS then some "\\.css$".toList else none
    template := pathJoin ctx.projectRoot
      ("src/pages/".toList ++ jsKey (pageNameOf entry) ++ "/index.html".toList)
    filename := (if ctx.htmlPfx.isEmpty then [] else ctx.htmlPfx ++ ['/']) ++
      jsKey (pageNameOf entry) ++ ".html".toList
    chunks := [pageNameOf entry]
    assetsPfx := ctx.assetsPfx ++ ['/']
    inject := ctx.inject && ctx.fsExists (entryFileOf entry)
    minify := if ctx.minifyHtml then some minifyOn else none }

/-- The loop body of `setMultiplePage`, accumulating `newEntry` and
`htmlWebpackPlugins` in input order: the push onto `htmlWebpackPlugins` is
unconditional, the `newEntry` assignment happens only when
`fs.existsSync(entryFile)`. -/
def smpGo (ctx : PageCtx) :
    List (List Char) → List (List Char × List Char) × List HtmlPlugin →
      List (List Char × List Char) × List HtmlPlugin
  | [], acc => acc
  | entry :: rest, (em, ps) =>
    smpGo ctx rest
      (if ctx.fsExists (entryFileOf entry) then
        upsert (pageKey entry) (entryFileOf entry) em
       else em,
       ps ++ [mkPlugin ctx entry])

/-- `BuilderCore.setMultiplePage`: returns `{newEntry, htmlWebpackPlugins}`. -/
def setMultiplePage (ctx : PageCtx) (entries : List (List Char)) :
    List (List Char × List Char) × List HtmlPlugin :=
  smpGo ctx entries ([], [])

/-! ## `setAlias` — import-alias discovery (`core.js` 672–687) -/

/-- Modelled from the spec: `listDir` comes from the repository's
`./util.js`, which is not under `src/`.  Per the spec it lists the
first-level subdirectories of the source root and yields, per directory, its
name and its absolute path under the source directory. -/
def listDirM (srcDir : List Char) (names : List (List Char)) :
    List (List Char × List Char) :=
  names.map (fun n => (n, pathJoin srcDir n))

/-- The `forEach` of `setAlias`: for each discovered directory assign
`aliasObject['/' + name] = dirPath` and then `aliasObject[name] = dirPath`. -/
def aliasScan (dirs : List (List Char × List Char)) : List (List Char × List Char) :=
  dirs.foldl (fun m d => upsert d.1 d.2 (upsert ('/' :: d.1) d.2 m)) []

/-- Modelled from the spec: `merge` comes from the repository's `./util.js`,
which is not under `src/`.  Per the spec, entries of the user-supplied
override map take precedence over discovered entries on key collision. -/
def mergeAlias (userAlias discovered : List (List Char × List Char)) :
    List (List Char × List Char) :=
  userAlias.foldl (fun m kv => upsert kv.1 kv.2 m) discovered

/-- `BuilderCore.setAlias(alias)`: scan the source directories, then — as in
the source's `isEmpty(alias)` guard — return the scan unchanged for an
absent/empty override map and otherwise merge the user-supplied overrides
with it (`merge` and `isEmpty` modelled from the spec, see `mergeAlias`). -/
def setAlias (dirs aliasMap : List (List Char × List Char)) :
    List (List Char × List Char) :=
  if aliasMap.isEmpty then aliasScan dirs else mergeAlias aliasMap (aliasScan dirs)

/-! ## General lemmas about `replaceFirst` -/

theorem replaceFirst_of_startsWith {pat repl s : List Char} (h : pat.isPrefixOf s = true) :
    replaceFirst pat repl s = repl ++ s.drop pat.length := by
  cases s with
  | nil =>
    cases pat with
    | nil => simp [replaceFirst]
    | cons p ps => simp [List.isPrefixOf] at h
  | cons c rest => rw [replaceFirst, if_pos h]

theorem replaceFirst_eq_self {pat repl s : List Char} (h : containsSub pat s = false) :
    replaceFirst pat repl s = s := by
  induction s with
  | nil =>
    rw [containsSub_nil] at h
    rw [replaceFirst, if_neg]
    simp [h]
  | cons c rest ih =>
    rw [replaceFirst, if_neg, ih (containsSub_eq_false_tail h)]
    simp [not_isPrefixOf_of_containsSub_eq_false h]

end BuilderCore

namespace BuilderCore

/-! ## Claim scenarios: fixed configurations and inputs -/

/-- The offline configuration of the C4/C8 scenarios:
`domain = "example.com"` (the other strings are inert for those inputs). -/
def c4cfg : OfflineCfg :=
  { assetsPfx := "static".toList, htmlPfx := "html".toList, cdnUrl := [],
    serverUrl := "//now.qq.com".toList, domain := "example.com".toList,
    cdn := "cdn".toList, product := "prod".toList }

/-- The markup input of the C4 scenario. -/
def c4input : List Char :=
  "<script src=\"//11.url.cn/now/x.js\" integrity=\"sha256-abc\" crossorigin=\"anonymous\"></script>".toList

/-- A markup asset path (contains the configured `htmlPrefix`). -/
def c4path : List Char := "html/index.html".toList

/-- The C4 output before the injected timestamp digits. -/
def c4outPre : List Char := "<script>var pack = \x7b\"version\":".toList

/-- The C4 output after the injected timestamp digits. -/
def c4outPost : List Char :=
  "\x7d</script><script src=\"//example.com/x.js\"  ></script>".toList

/-- The state of the C4 scenario markup after rules 1–5, before version
injection. -/
def c4mid : List Char := "<script src=\"//example.com/x.js\"  ></script>".toList

/-- C4: the scenario markup
`<script src="//11.url.cn/now/x.js" integrity="sha256-abc" crossorigin="anonymous"></script>`,
rewritten by the offline markup chain with `domain="example.com"`, yields a
script tag whose `src` is `//example.com/x.js`, with the `integrity` and
`crossorigin` attributes removed, and with an inline script defining the
global `pack` object carrying the current timestamp as `version` inserted
immediately before the first script-opening tag. -/
theorem offline_markup_scenario (now : Nat) :
    beforeAddBuffer c4cfg now c4input c4path = c4outPre ++ natChars now ++ c4outPost := by
  have hc : containsSub c4cfg.htmlPfx c4path = true := by decide
  rw [beforeAddBuffer, if_pos hc, markupRewrite,
    show markupPre c4cfg c4input = c4mid from by decide, injectVersion,
    replaceFirst_of_startsWith (by decide), packScript]
  have htail : "\x7d</script>".toList ++ (scriptTok ++ List.drop scriptTok.length c4mid) =
      c4outPost := by decide
  simp only [List.append_assoc]
  rw [htail]
  rfl

/-- C9: for every combination of `useHash`, `pathPrefix`, `publicPath` and
`outDir`, the script filename template produced by `setOutput` ends with the
literal cache-busting token `?_bid=152` — the very token the offline
rewriter later strips. -/
theorem setOutput_filename_has_bid_token (projectRoot : List Char) (useHash : Bool)
    (pathPfx publicPath : List Char) (outDir : Option (List Char)) :
    bidLit <:+ (setOutput projectRoot useHash pathPfx publicPath outDir).filename := by
  refine List.IsSuffix.trans (show bidLit <:+ ".js?_bid=152".toList from ⟨".js".toList, by decide⟩) ?_
  refine ⟨(if pathPfx.isEmpty then [] else pathPfx ++ ['/']) ++ "[name]".toList ++
    (if useHash then "_[chunkhash:8]".toList else []), ?_⟩
  simp [setOutput, List.append_assoc]

/-! ## Lemmas about `collapseSl`, `pathJoin` and `smpGo` -/

def slashSlash : List Char := ['/', '/']

theorem collapseSl_eq_self {l : List Char} (h : containsSub slashSlash l = false) :
    collapseSl l = l := by
  induction l with
  | nil => rfl
  | cons a rest ih =>
    cases rest with
    | nil => rfl
    | cons b t =>
      have hpre := not_isPrefixOf_of_containsSub_eq_false h
      have hne : (a = '/' && b = '/') = false := by
        cases ha : decide (a = '/') with
        | false => simp_all
        | true =>
          cases hb : decide (b = '/') with
          | false => simp_all
          | true =>
            exfalso
            have ha2 : a = '/' := of_decide_eq_true ha
            have hb2 : b = '/' := of_decide_eq_true hb
            rw [ha2, hb2] at hpre
            simp [slashSlash, List.isPrefixOf] at hpre
      rw [collapseSl, hne, ih (containsSub_eq_false_tail h)]
      simp

theorem getLast?_cons_cons_ne {a b : Char} {t : List Char}
    (h : (a :: b :: t).getLast? ≠ some '/') : (b :: t).getLast? ≠ some '/' := by
  rwa [List.getLast?_cons_cons] at h

/-- A slash-free-tail prefix survives `collapseSl` of itself joined (with a
separator) to anything. -/
theorem prefix_collapseSl_append {host : List Char} (p : List Char) (hne : host ≠ [])
    (hh : containsSub slashSlash host = false) (hlast : host.getLast? ≠ some '/') :
    host <+: collapseSl (host ++ '/' :: p) := by
  induction host with
  | nil => exact absurd rfl hne
  | cons a rest ih =>
    cases rest with
    | nil =>
      have ha : a ≠ '/' := by
        intro hcon
        exact hlast (by simp [hcon])
      show [a] <+: collapseSl (a :: '/' :: p)
      rw [collapseSl, show (a = '/' && '/' = '/') = false by simp [ha]]
      exact ⟨collapseSl ('/' :: p), rfl⟩
    | cons b t =>
      have hpre := not_isPrefixOf_of_containsSub_eq_false hh
      have hne2 : (a = '/' && b = '/') = false := by
        cases ha : decide (a = '/') with
        | false => simp_all
        | true =>
          cases hb : decide (b = '/') with
          | false => simp_all
          | true =>
            exfalso
            have ha2 : a = '/' := of_decide_eq_true ha
            have hb2 : b = '/' := of_decide_eq_true hb
            rw [ha2, hb2] at hpre
            simp [slashSlash, List.isPrefixOf] at hpre
      have ihh := ih (by simp) (containsSub_eq_false_tail hh) (getLast?_cons_cons_ne hlast)
      show a :: (b :: t) <+: collapseSl ((a :: b :: t) ++ '/' :: p)
      have hshape : (a :: b :: t) ++ '/' :: p = a :: b :: (t ++ '/' :: p) := by simp
      rw [hshape, collapseSl, hne2]
      simp only [Bool.false_eq_true, if_false]
      exact (List.prefix_cons_inj a).mpr ihh

theorem host_prefix_pathJoin {host : List Char} (p : List Char) (hne : host ≠ [])
    (hh : containsSub slashSlash host = false) (hlast : host.getLast? ≠ some '/') :
    host <+: pathJoin host p := by
  rw [pathJoin, if_neg (by simp [hne])]
  by_cases hp : p.isEmpty
  · rw [if_pos hp, collapseSl_eq_self hh]
  · rw [if_neg hp]
    exact prefix_collapseSl_append p hne hh hlast

theorem replaceFirst_slashSlash {host : List Char} :
    replaceFirst slashSlash [] ('/' :: '/' :: host) = host := by
  rw [replaceFirst_of_startsWith (by simp [slashSlash, List.isPrefixOf])]
  simp [slashSlash]

/-- The plugin list built by `setMultiplePage` is exactly one
`HtmlWebpackPlugin` per input directory, in input order. -/
theorem smpGo_snd (ctx : PageCtx) :
    ∀ (entries : List (List Char)) (em : List (List Char × List Char)) (ps : List HtmlPlugin),
      (smpGo ctx entries (em, ps)).2 = ps ++ entries.map (mkPlugin ctx) := by
  intro entries
  induction entries with
  | nil => intro em ps ; simp [smpGo]
  | cons e rest ih =>
    intro em ps
    rw [smpGo, ih]
    simp

theorem setMultiplePage_snd (ctx : PageCtx) (entries : List (List Char)) :
    (setMultiplePage ctx entries).2 = entries.map (mkPlugin ctx) := by
  rw [setMultiplePage, smpGo_snd]
  simp

/-! ## Entry-map lemmas for `setMultiplePage` -/

theorem lookupA_upsert_self (k v : List Char) :
    ∀ m : List (List Char × List Char), lookupA (upsert k v m) k = some v := by
  intro m
  induction m with
  | nil =>
    show (if k = k then some v else lookupA [] k) = some v
    rw [if_pos rfl]
  | cons kv rest ih =>
    obtain ⟨k2, v2⟩ := kv
    by_cases hk : k2 = k
    · show lookupA (if k2 = k then (k, v) :: rest else (k2, v2) :: upsert k v rest) k = some v
      rw [if_pos hk]
      show (if k = k then some v else lookupA rest k) = some v
      rw [if_pos rfl]
    · show lookupA (if k2 = k then (k, v) :: rest else (k2, v2) :: upsert k v rest) k = some v
      rw [if_neg hk]
      show (if k2 = k then some v2 else lookupA (upsert k v rest) k) = some v
      rw [if_neg hk]
      exact ih

theorem lookupA_upsert_ne {k k2 : List Char} (v : List Char) (h : k2 ≠ k) :
    ∀ m : List (List Char × List Char), lookupA (upsert k v m) k2 = lookupA m k2 := by
  intro m
  induction m with
  | nil =>
    show (if k = k2 then some v else lookupA [] k2) = none
    rw [if_neg (fun hc => h hc.symm)]
    rfl
  | cons kv rest ih =>
    obtain ⟨k3, v3⟩ := kv
    show lookupA (if k3 = k then (k, v) :: rest else (k3, v3) :: upsert k v rest) k2 =
      lookupA ((k3, v3) :: rest) k2
    by_cases hk : k3 = k
    · rw [if_pos hk]
      show (if k = k2 then some v else lookupA rest k2) =
        if k3 = k2 then some v3 else lookupA rest k2
      rw [if_neg (fun hc => h hc.symm), if_neg (fun hc => h (hk.symm ▸ hc.symm))]
    · rw [if_neg hk]
      show (if k3 = k2 then some v3 else lookupA (upsert k v rest) k2) =
        if k3 = k2 then some v3 else lookupA rest k2
      by_cases hq : k3 = k2
      · rw [if_pos hq, if_pos hq]
      · rw [if_neg hq, if_neg hq]
        exact ih

/-- Directories whose key a scan never touches keep their entry-map value. -/
theorem smpGo_fst_untouched (ctx : PageCtx) :
    ∀ (entries : List (List Char)) (em : List (List Char × List Char))
      (ps : List HtmlPlugin) (k : List Char), k ∉ entries.map pageKey →
      lookupA (smpGo ctx entries (em, ps)).1 k = lookupA em k := by
  intro entries
  induction entries with
  | nil => intro em ps k _ ; rfl
  | cons e rest ih =>
    intro em ps k hk
    rw [List.map_cons, List.mem_cons] at hk
    push_neg at hk
    rw [smpGo, ih _ _ _ (by exact hk.2)]
    by_cases hf : ctx.fsExists (entryFileOf e)
    · rw [if_pos hf]
      exact lookupA_upsert_ne _ hk.1 em
    · rw [if_neg hf]

/-- The entry-map value of a scanned directory: present (with the
`init.js` path) exactly when the entry script exists. -/
theorem smpGo_fst_found (ctx : PageCtx) :
    ∀ (entries : List (List Char)) (em : List (List Char × List Char))
      (ps : List HtmlPlugin) (e : List Char), e ∈ entries →
      (entries.map pageKey).Nodup → lookupA em (pageKey e) = none →
      lookupA (smpGo ctx entries (em, ps)).1 (pageKey e) =
        (if ctx.fsExists (entryFileOf e) then some (entryFileOf e) else none) := by
  intro entries
  induction entries with
  | nil => intro em ps e he ; exact absurd he (List.not_mem_nil e)
  | cons a rest ih =>
    intro em ps e he hnd hnone
    rw [List.map_cons, List.nodup_cons] at hnd
    rcases List.mem_cons.mp he with rfl | hmem
    · rw [smpGo, smpGo_fst_untouched ctx rest _ _ _ hnd.1]
      by_cases hf : ctx.fsExists (entryFileOf e)
      · rw [if_pos hf, if_pos hf]
        exact lookupA_upsert_self _ _ em
      · rw [if_neg hf, if_neg hf]
        exact hnone
    · have hkne : pageKey e ≠ pageKey a := by
        intro hc
        exact hnd.1 (hc ▸ List.mem_map_of_mem pageKey hmem)
      rw [smpGo]
      refine Eq.trans (ih _ _ e hmem hnd.2 ?_) rfl
      by_cases hf : ctx.fsExists (entryFileOf a)
      · rw [if_pos hf, lookupA_upsert_ne _ hkne em]
        exact hnone
      · rw [if_neg hf]
        exact hnone

/-! ## C1 — convention-matching pages -/

def c1entries : List (List Char) := ["/proj/src/pages/a".toList, "/proj/src/pages/b".toList]

/-- The planner context of the C1 scenario: only `pages/b` has an
`init.js`; the inject option is a parameter. -/
def c1ctx (inj : Bool) : PageCtx :=
  { projectRoot := "/proj".toList, minifyHtml := false, inject := inj, inlineCSS := false,
    assetsPfx := "assets".toList, htmlPfx := [],
    fsExists := fun p => p == "/proj/src/pages/b/init.js".toList }

/-- C1: for a list of page directories that all match the `pages/<name>`
convention (with distinct page names), the planner produces exactly one
template instantiation per page in input order; a page appears in the entry
map exactly when its fixed-named entry script `<dir>/init.js` exists (and
then it maps to that script); and each page's inject flag is
`options.inject AND entryScriptExists`.  In particular, for `pages/a`
without an entry script and `pages/b` with one, the entry map is exactly
`{b: ".../pages/b/init.js"}`, two template instantiations are produced, `a`'s
inject is `false` and `b`'s inject equals `options.inject`. -/
theorem smp_convention_pages (ctx : PageCtx) (entries : List (List Char)) (inj : Bool)
    (_hmatch : ∀ e ∈ entries, (pageNameOf e).isSome = true)
    (hnodup : (entries.map pageKey).Nodup) :
    ((setMultiplePage ctx entries).2 = entries.map (mkPlugin ctx) ∧
     (∀ e ∈ entries, (lookupA (setMultiplePage ctx entries).1 (pageKey e)).isSome =
       ctx.fsExists (entryFileOf e)) ∧
     (∀ e ∈ entries, ∀ v, lookupA (setMultiplePage ctx entries).1 (pageKey e) = some v →
       v = entryFileOf e) ∧
     (∀ e ∈ entries, (mkPlugin ctx e).inject = (ctx.inject && ctx.fsExists (entryFileOf e)))) ∧
    ((setMultiplePage (c1ctx inj) c1entries).1 =
       [("b".toList, "/proj/src/pages/b/init.js".toList)] ∧
     (setMultiplePage (c1ctx inj) c1entries).2.length = 2 ∧
     (setMultiplePage (c1ctx inj) c1entries).2.map HtmlPlugin.inject = [false, inj]) := by
  have hfound : ∀ e ∈ entries, lookupA (setMultiplePage ctx entries).1 (pageKey e) =
      (if ctx.fsExists (entryFileOf e) then some (entryFileOf e) else none) := by
    intro e he
    exact smpGo_fst_found ctx entries [] [] e he hnodup rfl
  refine ⟨⟨setMultiplePage_snd ctx entries, ?_, ?_, ?_⟩, ?_⟩
  · intro e he
    rw [hfound e he]
    by_cases hf : ctx.fsExists (entryFileOf e) <;> simp [hf]
  · intro e he v hv
    rw [hfound e he] at hv
    by_cases hf : ctx.fsExists (entryFileOf e)
    · rw [if_pos hf] at hv
      exact (Option.some_inj.mp hv).symm
    · rw [if_neg hf] at hv
      exact absurd hv (by simp)
  · intro e _ ; rfl
  · cases inj <;> exact ⟨by decide, by decide, by decide⟩

/-- C1, witnessed at the scenario's concrete inputs. -/
theorem smp_convention_pages_witness :
    ((∀ e ∈ c1entries, (pageNameOf e).isSome = true) ∧
     (c1entries.map pageKey).Nodup) ∧
    (((setMultiplePage (c1ctx true) c1entries).2 = c1entries.map (mkPlugin (c1ctx true)) ∧
      (∀ e ∈ c1entries, (lookupA (setMultiplePage (c1ctx true) c1entries).1 (pageKey e)).isSome =
        (c1ctx true).fsExists (entryFileOf e)) ∧
      (∀ e ∈ c1entries, ∀ v, lookupA (setMultiplePage (c1ctx true) c1entries).1 (pageKey e) = some v →
        v = entryFileOf e) ∧
      (∀ e ∈ c1entries, (mkPlugin (c1ctx true) e).inject =
        ((c1ctx true).inject && (c1ctx true).fsExists (entryFileOf e)))) ∧
     ((setMultiplePage (c1ctx true) c1entries).1 =
        [("b".toList, "/proj/src/pages/b/init.js".toList)] ∧
      (setMultiplePage (c1ctx true) c1entries).2.length = 2 ∧
      (setMultiplePage (c1ctx true) c1entries).2.map HtmlPlugin.inject = [false, true])) :=
  ⟨⟨by decide, by decide⟩,
    smp_convention_pages (c1ctx true) c1entries true (by decide) (by decide)⟩

/-! ## Alias-map lemmas for `setAlias` -/

theorem upsert_of_lookupA_none {k : List Char} (v : List Char) :
    ∀ {m : List (List Char × List Char)}, lookupA m k = none → upsert k v m = m ++ [(k, v)] := by
  intro m
  induction m with
  | nil => intro _ ; rfl
  | cons kv rest ih =>
    obtain ⟨k2, v2⟩ := kv
    intro h
    have h2 : ¬k2 = k := by
      intro hc
      rw [show lookupA ((k2, v2) :: rest) k = if k2 = k then some v2 else lookupA rest k
        from rfl, if_pos hc] at h
      exact Option.some_ne_none v2 h
    have h3 : lookupA rest k = none := by
      rw [show lookupA ((k2, v2) :: rest) k = if k2 = k then some v2 else lookupA rest k
        from rfl, if_neg h2] at h
      exact h
    show (if k2 = k then (k, v) :: rest else (k2, v2) :: upsert k v rest) =
      (k2, v2) :: rest ++ [(k, v)]
    rw [if_neg h2, ih h3]
    rfl

theorem lookupA_append_of_none {k : List Char} {m : List (List Char × List Char)}
    (l : List (List Char × List Char)) (h : lookupA m k = none) :
    lookupA (m ++ l) k = lookupA l k := by
  induction m with
  | nil => rfl
  | cons kv rest ih =>
    obtain ⟨k2, v2⟩ := kv
    have h2 : ¬k2 = k := by
      intro hc
      rw [show lookupA ((k2, v2) :: rest) k = if k2 = k then some v2 else lookupA rest k
        from rfl, if_pos hc] at h
      exact Option.some_ne_none v2 h
    have h3 : lookupA rest k = none := by
      rw [show lookupA ((k2, v2) :: rest) k = if k2 = k then some v2 else lookupA rest k
        from rfl, if_neg h2] at h
      exact h
    show (if k2 = k then some v2 else lookupA (rest ++ l) k) = lookupA l k
    rw [if_neg h2]
    exact ih h3

theorem mem_keys_upsert {k2 k v : List Char} :
    ∀ {m : List (List Char × List Char)}, k2 ∈ (upsert k v m).map Prod.fst →
      k2 = k ∨ k2 ∈ m.map Prod.fst := by
  intro m
  induction m with
  | nil =>
    intro h
    simp [upsert] at h
    exact Or.inl h
  | cons kv rest ih =>
    obtain ⟨k3, v3⟩ := kv
    intro h
    by_cases hk : k3 = k
    · rw [show upsert k v ((k3, v3) :: rest) = if k3 = k then (k, v) :: rest
        else (k3, v3) :: upsert k v rest from rfl, if_pos hk] at h
      rcases List.mem_cons.mp h with h1 | h2
      · exact Or.inl h1
      · exact Or.inr (List.mem_cons.mpr (Or.inr h2))
    · rw [show upsert k v ((k3, v3) :: rest) = if k3 = k then (k, v) :: rest
        else (k3, v3) :: upsert k v rest from rfl, if_neg hk] at h
      rcases List.mem_cons.mp h with h1 | h2
      · exact Or.inr (List.mem_cons.mpr (Or.inl h1))
      · rcases ih h2 with h3 | h4
        · exact Or.inl h3
        · exact Or.inr (List.mem_cons.mpr (Or.inr h4))

theorem nodupKeys_upsert {k v : List Char} :
    ∀ {m : List (List Char × List Char)}, (m.map Prod.fst).Nodup →
      ((upsert k v m).map Prod.fst).Nodup := by
  intro m
  induction m with
  | nil => intro _ ; simp [upsert]
  | cons kv rest ih =>
    obtain ⟨k3, v3⟩ := kv
    intro h
    rw [List.map_cons, List.nodup_cons] at h
    by_cases hk : k3 = k
    · rw [show upsert k v ((k3, v3) :: rest) = if k3 = k then (k, v) :: rest
        else (k3, v3) :: upsert k v rest from rfl, if_pos hk]
      rw [List.map_cons, List.nodup_cons]
      exact ⟨hk ▸ h.1, h.2⟩
    · rw [show upsert k v ((k3, v3) :: rest) = if k3 = k then (k, v) :: rest
        else (k3, v3) :: upsert k v rest from rfl, if_neg hk]
      rw [List.map_cons, List.nodup_cons]
      refine ⟨fun hc => ?_, ih h.2⟩
      rcases mem_keys_upsert hc with h1 | h2
      · exact hk h1
      · exact h.1 h2

theorem nodupKeys_foldl_scan (step : List (List Char × List Char) → (List Char × List Char) →
      List (List Char × List Char))
    (hstep : ∀ m d, (m.map Prod.fst).Nodup → ((step m d).map Prod.fst).Nodup) :
    ∀ (dirs : List (List Char × List Char)) (m : List (List Char × List Char)),
      (m.map Prod.fst).Nodup → ((dirs.foldl step m).map Prod.fst).Nodup := by
  intro dirs
  induction dirs with
  | nil => intro m h ; exact h
  | cons d rest ih => intro m h ; exact ih _ (hstep m d h)

/-- Every alias map the scan produces has pairwise-distinct keys. -/
theorem nodupKeys_aliasScan (dirs : List (List Char × List Char)) :
    ((aliasScan dirs).map Prod.fst).Nodup := by
  rw [aliasScan]
  exact nodupKeys_foldl_scan _ (fun m d h => nodupKeys_upsert (nodupKeys_upsert h)) dirs []
    (by simp)

theorem lookupA_foldl_upsert_not_mem {k : List Char} :
    ∀ (l : List (List Char × List Char)), k ∉ l.map Prod.fst →
      ∀ m, lookupA (l.foldl (fun acc kv => upsert kv.1 kv.2 acc) m) k = lookupA m k := by
  intro l
  induction l with
  | nil => intro _ m ; rfl
  | cons kv rest ih =>
    obtain ⟨k0, v0⟩ := kv
    intro hk m
    rw [List.map_cons, List.mem_cons] at hk
    push_neg at hk
    rw [List.foldl_cons, ih hk.2]
    exact lookupA_upsert_ne v0 hk.1 m

theorem lookupA_foldl_upsert_found {k v : List Char} :
    ∀ (l : List (List Char × List Char)), (l.map Prod.fst).Nodup → lookupA l k = some v →
      ∀ m, lookupA (l.foldl (fun acc kv => upsert kv.1 kv.2 acc) m) k = some v := by
  intro l
  induction l with
  | nil => intro _ h ; exact absurd h (by simp [lookupA])
  | cons kv rest ih =>
    obtain ⟨k0, v0⟩ := kv
    intro hnd hl m
    rw [List.map_cons, List.nodup_cons] at hnd
    by_cases hk : k0 = k
    · have hv : v0 = v := by
        rw [show lookupA ((k0, v0) :: rest) k = if k0 = k then some v0 else lookupA rest k
          from rfl, if_pos hk] at hl
        exact Option.some_inj.mp hl
      subst hk
      subst hv
      rw [List.foldl_cons, lookupA_foldl_upsert_not_mem rest hnd.1]
      exact lookupA_upsert_self k0 v0 m
    · have h3 : lookupA rest k = some v := by
        rw [show lookupA ((k0, v0) :: rest) k = if k0 = k then some v0 else lookupA rest k
          from rfl, if_neg hk] at hl
        exact hl
      rw [List.foldl_cons]
      exact ih hnd.2 h3 _

/-! ## C5 — user-supplied overrides win on key collision -/

/-- C5: merging with an empty/absent override map returns the discovered
alias map unchanged, and for a non-empty override map every key of the
override map (in particular every key present in both maps) ends up bound to
the override map's value in the result (`merge`/`isEmpty` of the missing
`util.js` modelled from the spec, see `mergeAlias`). -/
theorem setAlias_override_precedence (dirs aliasMap : List (List Char × List Char))
    (k v : List Char) (hnd : (aliasMap.map Prod.fst).Nodup) :
    setAlias dirs [] = aliasScan dirs ∧
    (aliasMap ≠ [] → lookupA aliasMap k = some v →
      lookupA (setAlias dirs aliasMap) k = some v) := by
  refine ⟨rfl, fun hne hk => ?_⟩
  rw [setAlias, if_neg (by simp [hne]), mergeAlias]
  exact lookupA_foldl_upsert_found aliasMap hnd hk _

/-- C5, witnessed: the discovered map binds `mod`, the override map rebinds
it, and the override value wins. -/
theorem setAlias_override_precedence_witness :
    (([("mod".toList, "/custom/mod".toList)].map Prod.fst).Nodup) ∧
    (setAlias (listDirM "/proj/src".toList ["mod".toList]) [] =
       aliasScan (listDirM "/proj/src".toList ["mod".toList]) ∧
     ([("mod".toList, "/custom/mod".toList)] ≠ ([] : List (List Char × List Char)) →
       lookupA [("mod".toList, "/custom/mod".toList)] "mod".toList =
         some "/custom/mod".toList →
       lookupA (setAlias (listDirM "/proj/src".toList ["mod".toList])
         [("mod".toList, "/custom/mod".toList)]) "mod".toList =
           some "/custom/mod".toList)) :=
  ⟨by decide,
    setAlias_override_precedence (listDirM "/proj/src".toList ["mod".toList])
      [("mod".toList, "/custom/mod".toList)] "mod".toList "/custom/mod".toList (by decide)⟩

/-! ## C6 — two alias keys per first-level subdirectory -/

/-- The alias map the scan produces, spelled out: per discovered directory
the slash-prefixed key then the bare key, both bound to the joined path. -/
def aliasPairs (srcDir : List Char) : List (List Char) → List (List Char × List Char)
  | [] => []
  | n :: rest => ('/' :: n, pathJoin srcDir n) :: (n, pathJoin srcDir n) :: aliasPairs srcDir rest

theorem slash_cons_ne_self {n : List Char} : ('/' :: n) ≠ n := by
  intro hc
  have := congrArg List.length hc
  simp at this

theorem slash_cons_ne_of_not_mem {n m : List Char} (h : '/' ∉ m) : ('/' :: n) ≠ m := by
  intro hc
  exact h (hc ▸ List.mem_cons_self '/' n)

theorem lookupA_pair_none {a1 a2 b1 b2 k : List Char} (h1 : a1 ≠ k) (h2 : b1 ≠ k) :
    lookupA [(a1, a2), (b1, b2)] k = none := by
  show (if a1 = k then some a2 else if b1 = k then some b2 else lookupA [] k) = none
  rw [if_neg h1, if_neg h2]
  rfl

theorem aliasScan_go (srcDir : List Char) :
    ∀ (names : List (List Char)) (m : List (List Char × List Char)),
      names.Nodup → (∀ n ∈ names, '/' ∉ n) →
      (∀ n ∈ names, lookupA m n = none ∧ lookupA m ('/' :: n) = none) →
      (listDirM srcDir names).foldl
        (fun acc d => upsert d.1 d.2 (upsert ('/' :: d.1) d.2 acc)) m =
        m ++ aliasPairs srcDir names := by
  intro names
  induction names with
  | nil => intro m _ _ _ ; simp [listDirM, aliasPairs]
  | cons n rest ih =>
    intro m hnd hslash hm
    rw [List.nodup_cons] at hnd
    have h1 : lookupA m n = none := (hm n (List.mem_cons_self n rest)).1
    have h2 : lookupA m ('/' :: n) = none := (hm n (List.mem_cons_self n rest)).2
    have hstep1 : upsert ('/' :: n) (pathJoin srcDir n) m = m ++ [('/' :: n, pathJoin srcDir n)] :=
      upsert_of_lookupA_none _ h2
    have hlook : lookupA (m ++ [('/' :: n, pathJoin srcDir n)]) n = none := by
      rw [lookupA_append_of_none _ h1]
      show (if '/' :: n = n then some (pathJoin srcDir n) else lookupA [] n) = none
      rw [if_neg slash_cons_ne_self]
      rfl
    have hstep2 : upsert n (pathJoin srcDir n) (m ++ [('/' :: n, pathJoin srcDir n)]) =
        m ++ [('/' :: n, pathJoin srcDir n), (n, pathJoin srcDir n)] := by
      rw [upsert_of_lookupA_none _ hlook, List.append_assoc]
      rfl
    have hrest : ∀ n2 ∈ rest,
        lookupA (m ++ [('/' :: n, pathJoin srcDir n), (n, pathJoin srcDir n)]) n2 = none ∧
        lookupA (m ++ [('/' :: n, pathJoin srcDir n), (n, pathJoin srcDir n)]) ('/' :: n2) =
          none := by
      intro n2 hn2
      constructor
      · rw [lookupA_append_of_none _ (hm n2 (List.mem_cons_of_mem n hn2)).1]
        refine lookupA_pair_none
          (slash_cons_ne_of_not_mem (hslash n2 (List.mem_cons_of_mem n hn2))) ?_
        intro hc
        refine hnd.1 ?_
        rw [hc]
        exact hn2
      · rw [lookupA_append_of_none _ (hm n2 (List.mem_cons_of_mem n hn2)).2]
        refine lookupA_pair_none ?_ ?_
        · intro hc
          have h4 : n = n2 := by
            injection hc
          refine hnd.1 ?_
          rw [h4]
          exact hn2
        · intro hc
          refine hslash n (List.mem_cons_self n rest) ?_
          rw [hc]
          exact List.mem_cons_self '/' n2
    show List.foldl _ m ((n, pathJoin srcDir n) :: listDirM srcDir rest) = _
    rw [List.foldl_cons]
    show List.foldl _ (upsert n (pathJoin srcDir n) (upsert ('/' :: n) (pathJoin srcDir n) m))
      (listDirM srcDir rest) = _
    rw [hstep1, hstep2,
      ih _ hnd.2 (fun x hx => hslash x (List.mem_cons_of_mem n hx)) hrest,
      List.append_assoc]
    rfl

theorem setAlias_scan_eq_aliasPairs {srcDir : List Char} {names : List (List Char)}
    (hnd : names.Nodup) (hslash : ∀ n ∈ names, '/' ∉ n) :
    setAlias (listDirM srcDir names) [] = aliasPairs srcDir names := by
  show aliasScan (listDirM srcDir names) = aliasPairs srcDir names
  rw [aliasScan]
  have := aliasScan_go srcDir names [] hnd hslash (fun n _ => ⟨rfl, rfl⟩)
  simpa using this

theorem length_aliasPairs (srcDir : List Char) :
    ∀ names : List (List Char), (aliasPairs srcDir names).length = 2 * names.length := by
  intro names
  induction names with
  | nil => rfl
  | cons n rest ih =>
    rw [aliasPairs, List.length_cons, List.length_cons, ih, List.length_cons]
    omega

theorem lookupA_aliasPairs_bare (srcDir : List Char) :
    ∀ (names : List (List Char)) (n : List Char), names.Nodup →
      (∀ x ∈ names, '/' ∉ x) → n ∈ names →
      lookupA (aliasPairs srcDir names) n = some (pathJoin srcDir n) := by
  intro names
  induction names with
  | nil => intro n _ _ h ; exact absurd h (List.not_mem_nil n)
  | cons n0 rest ih =>
    intro n hnd hslash hmem
    rw [List.nodup_cons] at hnd
    show (if '/' :: n0 = n then some (pathJoin srcDir n0)
      else lookupA ((n0, pathJoin srcDir n0) :: aliasPairs srcDir rest) n) = _
    rw [if_neg (slash_cons_ne_of_not_mem (hslash n hmem))]
    rcases List.mem_cons.mp hmem with rfl | hmem2
    · show (if n = n then some (pathJoin srcDir n) else _) = _
      rw [if_pos rfl]
    · show (if n0 = n then some (pathJoin srcDir n0) else lookupA (aliasPairs srcDir rest) n) = _
      rw [if_neg (fun hc => hnd.1 (by rw [hc] ; exact hmem2)),
        ih n hnd.2 (fun x hx => hslash x (List.mem_cons_of_mem n0 hx)) hmem2]

theorem lookupA_aliasPairs_slash (srcDir : List Char) :
    ∀ (names : List (List Char)) (n : List Char), names.Nodup →
      (∀ x ∈ names, '/' ∉ x) → n ∈ names →
      lookupA (aliasPairs srcDir names) ('/' :: n) = some (pathJoin srcDir n) := by
  intro names
  induction names with
  | nil => intro n _ _ h ; exact absurd h (List.not_mem_nil n)
  | cons n0 rest ih =>
    intro n hnd hslash hmem
    rw [List.nodup_cons] at hnd
    rcases List.mem_cons.mp hmem with rfl | hmem2
    · show (if '/' :: n = '/' :: n then some (pathJoin srcDir n) else _) = _
      rw [if_pos rfl]
    · show (if '/' :: n0 = '/' :: n then some (pathJoin srcDir n0)
        else if n0 = '/' :: n then some (pathJoin srcDir n0)
        else lookupA (aliasPairs srcDir rest) ('/' :: n)) = _
      rw [if_neg (fun hc => hnd.1 (by injection hc with h1 h2 ; rw [h2] ; exact hmem2)),
        if_neg (fun hc => hslash n0 (List.mem_cons_self n0 rest)
          (by rw [hc] ; exact List.mem_cons_self '/' n)),
        ih n hnd.2 (fun x hx => hslash x (List.mem_cons_of_mem n0 hx)) hmem2]

theorem mem_aliasPairs (srcDir : List Char) :
    ∀ (names : List (List Char)) (kv : List Char × List Char),
      kv ∈ aliasPairs srcDir names → ∃ n ∈ names, kv.2 = pathJoin srcDir n := by
  intro names
  induction names with
  | nil => intro kv h ; exact absurd h (List.not_mem_nil kv)
  | cons n0 rest ih =>
    intro kv h
    rcases List.mem_cons.mp h with rfl | h2
    · exact ⟨n0, List.mem_cons_self n0 rest, rfl⟩
    · rcases List.mem_cons.mp h2 with rfl | h3
      · exact ⟨n0, List.mem_cons_self n0 rest, rfl⟩
      · obtain ⟨n, hn, hv⟩ := ih kv h3
        exact ⟨n, List.mem_cons_of_mem n0 hn, hv⟩

theorem head?_eq_of_initial {l r : List Char} (h : l <+: r) (hne : l ≠ []) :
    r.head? = l.head? := by
  obtain ⟨t, ht⟩ := h
  subst ht
  cases l with
  | nil => exact absurd rfl hne
  | cons c cs => rfl

/-- C6: for a source directory with `N` first-level subdirectories and no
overrides, the alias resolver produces a map with exactly `2N` (pairwise
distinct) keys — per subdirectory the bare name and the slash-prefixed name,
both bound to the same joined path under the source directory — and every
bound path is an absolute path extending the source directory. -/
theorem setAlias_two_keys_per_dir (srcDir : List Char) (names : List (List Char))
    (hnd : names.Nodup) (hslash : ∀ n ∈ names, '/' ∉ n) (hnem : ∀ n ∈ names, n ≠ [])
    (hsrcne : srcDir ≠ []) (habs : srcDir.head? = some '/')
    (hss : containsSub slashSlash srcDir = false) (hlast : srcDir.getLast? ≠ some '/') :
    (setAlias (listDirM srcDir names) []).length = 2 * names.length ∧
    ((setAlias (listDirM srcDir names) []).map Prod.fst).Nodup ∧
    (∀ n ∈ names,
      lookupA (setAlias (listDirM srcDir names) []) n = some (pathJoin srcDir n) ∧
      lookupA (setAlias (listDirM srcDir names) []) ('/' :: n) = some (pathJoin srcDir n)) ∧
    (∀ kv ∈ setAlias (listDirM srcDir names) [],
      srcDir <+: kv.2 ∧ kv.2.head? = some '/') := by
  have hchar : setAlias (listDirM srcDir names) [] = aliasPairs srcDir names :=
    setAlias_scan_eq_aliasPairs hnd hslash
  refine ⟨?_, ?_, ?_, ?_⟩
  · rw [hchar, length_aliasPairs]
  · exact nodupKeys_aliasScan (listDirM srcDir names)
  · intro n hn
    rw [hchar]
    exact ⟨lookupA_aliasPairs_bare srcDir names n hnd hslash hn,
      lookupA_aliasPairs_slash srcDir names n hnd hslash hn⟩
  · intro kv hkv
    rw [hchar] at hkv
    obtain ⟨n, hn, hv⟩ := mem_aliasPairs srcDir names kv hkv
    have hjoin : pathJoin srcDir n = collapseSl (srcDir ++ '/' :: n) := by
      rw [pathJoin, if_neg (by simp [hsrcne]), if_neg (by simp [hnem n hn])]
    have hpre : srcDir <+: kv.2 := by
      rw [hv, hjoin]
      exact prefix_collapseSl_append n hsrcne hss hlast
    exact ⟨hpre, by rw [head?_eq_of_initial hpre hsrcne, habs]⟩

/-- C6, witnessed at a concrete two-directory source tree. -/
theorem setAlias_two_keys_per_dir_witness :
    ((["mod".toList, "lib".toList] : List (List Char)).Nodup ∧
     (∀ n ∈ (["mod".toList, "lib".toList] : List (List Char)), '/' ∉ n) ∧
     (∀ n ∈ (["mod".toList, "lib".toList] : List (List Char)), n ≠ []) ∧
     "/proj/src".toList ≠ [] ∧ ("/proj/src".toList).head? = some '/' ∧
     containsSub slashSlash "/proj/src".toList = false ∧
     ("/proj/src".toList).getLast? ≠ some '/') ∧
    ((setAlias (listDirM "/proj/src".toList ["mod".toList, "lib".toList]) []).length =
       2 * (["mod".toList, "lib".toList] : List (List Char)).length ∧
     ((setAlias (listDirM "/proj/src".toList ["mod".toList, "lib".toList]) []).map
       Prod.fst).Nodup ∧
     (∀ n ∈ (["mod".toList, "lib".toList] : List (List Char)),
       lookupA (setAlias (listDirM "/proj/src".toList ["mod".toList, "lib".toList]) []) n =
         some (pathJoin "/proj/src".toList n) ∧
       lookupA (setAlias (listDirM "/proj/src".toList ["mod".toList, "lib".toList]) [])
         ('/' :: n) = some (pathJoin "/proj/src".toList n)) ∧
     (∀ kv ∈ setAlias (listDirM "/proj/src".toList ["mod".toList, "lib".toList]) [],
       "/proj/src".toList <+: kv.2 ∧ kv.2.head? = some '/')) :=
  ⟨⟨by decide, by decide, by decide, by decide, by decide, by decide, by decide⟩,
    setAlias_two_keys_per_dir "/proj/src".toList ["mod".toList, "lib".toList]
      (by decide) (by decide) (by decide) (by decide) (by decide) (by decide) (by decide)⟩

/-! ## Length of a first-occurrence replacement -/

theorem length_le_of_isPrefixOf {pat s : List Char} (h : pat.isPrefixOf s = true) :
    pat.length ≤ s.length := by
  rw [List.isPrefixOf_iff_prefix] at h
  exact h.length_le

theorem replaceFirst_length {pat repl : List Char} :
    ∀ {s : List Char}, containsSub pat s = true →
      (replaceFirst pat repl s).length + pat.length = s.length + repl.length := by
  intro s
  induction s with
  | nil =>
    intro h
    rw [containsSub_nil] at h
    have hp : pat = [] := by simpa using h
    subst hp
    simp [replaceFirst]
  | cons c rest ih =>
    intro h
    by_cases hp : pat.isPrefixOf (c :: rest) = true
    · rw [replaceFirst, if_pos hp]
      have hle := length_le_of_isPrefixOf hp
      simp only [List.length_append, List.length_drop]
      simp only [List.length_cons] at hle ⊢
      omega
    · rw [replaceFirst, if_neg (by simp [hp])]
      have h2 : containsSub pat rest = true := by
        rw [containsSub_cons] at h
        rcases Bool.or_eq_true_iff.mp h with h1 | h1
        · exact absurd h1 hp
        · exact h1
      have := ih h2
      simp only [List.length_cons]
      omega

theorem packScript_length_pos (now : Nat) : 0 < (packScript now).length := by
  rw [packScript]
  simp [List.length_append]

theorem injectVersion_length {now : Nat} {s : List Char}
    (h : containsSub scriptTok s = true) :
    (injectVersion now s).length = s.length + (packScript now).length := by
  have : (replaceFirst scriptTok (packScript now ++ scriptTok) s).length + scriptTok.length =
      s.length + (packScript now ++ scriptTok).length := replaceFirst_length h
  rw [injectVersion]
  rw [List.length_append] at this
  omega

theorem injectVersion_ne_self {now : Nat} {s : List Char}
    (h : containsSub scriptTok s = true) : injectVersion now s ≠ s := by
  intro hc
  have hlen : (injectVersion now s).length = s.length + (packScript now).length :=
    injectVersion_length h
  rw [hc] at hlen
  have := packScript_length_pos now
  omega

/-! ## C8 — the rewrite chain is not idempotent -/

/-- A markup input carrying two `integrity` attributes. -/
def c8input : List Char :=
  "<script integrity=\"a\"></script><script integrity=\"b\"></script>".toList

set_option maxRecDepth 40000 in
/-- C8 counterexample: on a markup string with two `integrity` attributes
the integrity rule (which strips only one attribute per pass) leaves an
`integrity="` occurrence in the first-pass output, and a second pass makes a
further change to it — contradicting the claim's "those substrings are
already absent after the first pass / no further change" for every markup
string. -/
theorem offline_rewrite_second_pass_changes :
    containsSub intTok (markupRewrite c4cfg 0 c8input) = true ∧
    removeIntegrity (markupRewrite c4cfg 0 c8input) ≠ markupRewrite c4cfg 0 c8input := by
  refine ⟨by decide, by decide⟩

/-- C8 amended: on already-rewritten markup in which the
`crossorigin="anonymous"`, `?_bid=152` and `integrity="` substrings are
absent after the first pass (true for at most one integrity attribute and no
re-assembled occurrences, but not for every markup string — see the
counterexample) and which the two domain substitutions no longer touch, a
second run of the chain changes nothing through rules 1–5 and only prepends
one more inline version script; the chain is therefore not idempotent
overall: the second pass output differs from its input. -/
theorem offline_rewrite_amended (cfg : OfflineCfg) (now2 : Nat) (s : List Char)
    (hbase : containsSub (subPre base11) s = false)
    (hbiz : containsSub (subPre (bizBase cfg)) s = false)
    (hcross : containsSub crossLit s = false)
    (hbid : containsSub bidLit s = false)
    (hint : containsSub intTok s = false)
    (hscript : containsSub scriptTok s = true) :
    markupRewrite cfg now2 s = injectVersion now2 s ∧
    injectVersion now2 s ≠ s := by
  have hpre : markupPre cfg s = s := by
    rw [markupPre, domainSub_eq_self hbase, domainSub_eq_self hbiz,
      removeAll_eq_self hcross, removeAll_eq_self hbid, removeIntegrity_eq_self hint]
  exact ⟨by rw [markupRewrite, hpre], injectVersion_ne_self hscript⟩

set_option maxRecDepth 40000 in
/-- C8 amended, witnessed on the first-pass output of the C4 scenario. -/
theorem offline_rewrite_amended_witness :
    (containsSub (subPre base11) (markupRewrite c4cfg 7 c4input) = false ∧
     containsSub (subPre (bizBase c4cfg)) (markupRewrite c4cfg 7 c4input) = false ∧
     containsSub crossLit (markupRewrite c4cfg 7 c4input) = false ∧
     containsSub bidLit (markupRewrite c4cfg 7 c4input) = false ∧
     containsSub intTok (markupRewrite c4cfg 7 c4input) = false ∧
     containsSub scriptTok (markupRewrite c4cfg 7 c4input) = true) ∧
    (markupRewrite c4cfg 9 (markupRewrite c4cfg 7 c4input) =
       injectVersion 9 (markupRewrite c4cfg 7 c4input) ∧
     injectVersion 9 (markupRewrite c4cfg 7 c4input) ≠ markupRewrite c4cfg 7 c4input) :=
  ⟨⟨by decide, by decide, by decide, by decide, by decide, by decide⟩,
    offline_rewrite_amended c4cfg 9 (markupRewrite c4cfg 7 c4input)
      (by decide) (by decide) (by decide) (by decide) (by decide) (by decide)⟩

/-! ## Injectivity of the injected timestamp -/

theorem replaceFirst_inj {pat r1 r2 : List Char} :
    ∀ {s : List Char}, containsSub pat s = true →
      replaceFirst pat r1 s = replaceFirst pat r2 s → r1 = r2 := by
  intro s
  induction s with
  | nil =>
    intro h hc
    rw [containsSub_nil] at h
    rw [replaceFirst, replaceFirst, if_pos h, if_pos h] at hc
    exact hc
  | cons c rest ih =>
    intro h hc
    by_cases hp : pat.isPrefixOf (c :: rest) = true
    · rw [replaceFirst, replaceFirst, if_pos hp, if_pos hp] at hc
      have hlen : r1.length = r2.length := by
        have := congrArg List.length hc
        simp only [List.length_append] at this
        omega
      exact (List.append_inj hc hlen).1
    · rw [replaceFirst, replaceFirst, if_neg (by simp [hp]), if_neg (by simp [hp])] at hc
      have h2 : containsSub pat rest = true := by
        rw [containsSub_cons] at h
        rcases Bool.or_eq_true_iff.mp h with h1 | h1
        · exact absurd h1 hp
        · exact h1
      exact ih h2 (List.cons_injective hc)

/-- Decode a most-significant-first decimal digit string. -/
def decodeNat (l : List Char) : Nat := l.foldl (fun a c => a * 10 + (c.toNat - 48)) 0

theorem digitChar_toNat {d : Nat} (h : d < 10) : (digitChar d).toNat = 48 + d := by
  interval_cases d <;> decide

theorem decodeNat_append_digit (l : List Char) (c : Char) :
    decodeNat (l ++ [c]) = decodeNat l * 10 + (c.toNat - 48) := by
  rw [decodeNat, decodeNat, List.foldl_append]
  rfl

theorem decodeNat_natDigitsGo : ∀ (fuel n : Nat), n < fuel →
    decodeNat (natDigitsGo fuel n) = n := by
  intro fuel
  induction fuel with
  | zero => intro n h ; exact absurd h (Nat.not_lt_zero n)
  | succ f ih =>
    intro n h
    by_cases hn : n < 10
    · rw [natDigitsGo, if_pos hn]
      show decodeNat [digitChar n] = n
      rw [show decodeNat [digitChar n] = 0 * 10 + ((digitChar n).toNat - 48) from rfl,
        digitChar_toNat hn]
      omega
    · rw [natDigitsGo, if_neg hn, decodeNat_append_digit,
        ih (n / 10) (by omega), digitChar_toNat (Nat.mod_lt n (by omega))]
      omega

theorem natChars_inj {n1 n2 : Nat} (h : natChars n1 = natChars n2) : n1 = n2 := by
  have h1 := decodeNat_natDigitsGo (n1 + 1) n1 (Nat.lt_succ_self n1)
  have h2 := decodeNat_natDigitsGo (n2 + 1) n2 (Nat.lt_succ_self n2)
  rw [← h1, ← h2]
  rw [natChars, natChars] at h
  rw [h]

theorem packScript_inj {n1 n2 : Nat} (h : packScript n1 = packScript n2) : n1 = n2 := by
  rw [packScript, packScript] at h
  have h2 := List.append_cancel_right h
  exact natChars_inj (List.append_cancel_left h2)

/-! ## C10 — the markup rewriter depends on the clock -/

/-- C10: the markup content rewriter is not a function of its text input and
configuration alone: whenever the version-injection rule fires (the
rules-1–5 output still contains a script-opening tag, as it does for any
ordinary markup input with one), two runs at different `Date.now()` values
produce different outputs, because the injected version marker embeds the
current timestamp. -/
theorem offline_markup_time_dependent (cfg : OfflineCfg) (now1 now2 : Nat)
    (source assetPath : List Char)
    (hpath : containsSub cfg.htmlPfx assetPath = true)
    (hscript : containsSub scriptTok (markupPre cfg source) = true)
    (hne : now1 ≠ now2) :
    beforeAddBuffer cfg now1 source assetPath ≠ beforeAddBuffer cfg now2 source assetPath := by
  intro hc
  rw [beforeAddBuffer, if_pos hpath] at hc
  rw [beforeAddBuffer, if_pos hpath] at hc
  rw [markupRewrite, markupRewrite, injectVersion, injectVersion] at hc
  have hrep := replaceFirst_inj hscript hc
  have hpack : packScript now1 = packScript now2 :=
    List.append_cancel_right hrep
  exact hne (packScript_inj hpack)

set_option maxRecDepth 40000 in
/-- C10, witnessed: the C4 scenario rewritten at two different clock values
gives different outputs. -/
theorem offline_markup_time_dependent_witness :
    (containsSub c4cfg.htmlPfx c4path = true ∧
     containsSub scriptTok (markupPre c4cfg c4input) = true ∧ (3 : Nat) ≠ 4) ∧
    beforeAddBuffer c4cfg 3 c4input c4path ≠ beforeAddBuffer c4cfg 4 c4input c4path :=
  ⟨⟨by decide, by decide, by decide⟩,
    offline_markup_time_dependent c4cfg 3 4 c4input c4path
      (by decide) (by decide) (by decide)⟩

/-! ## C2 — non-convention directories are *not* skipped -/

/-- A planner context used for the C2 scenario: the non-convention directory
`foo/bar` does have an `init.js`. -/
def c2ctx : PageCtx :=
  { projectRoot := "/proj".toList, minifyHtml := false, inject := true, inlineCSS := false,
    assetsPfx := "assets".toList, htmlPfx := [], fsExists := fun p => p == "foo/bar/init.js".toList }

/-- C2 counterexample: the directory `foo/bar` does not match the
`pages/<name>` convention, yet the planner produces one template
instantiation for it and (since its `init.js` exists) an entry-map entry
under the key `"null"` — the claim's "contributes no entry-map entry and no
template instantiation" fails at this input. -/
theorem smp_nonmatching_skipped_is_false :
    pageNameOf "foo/bar".toList = none ∧
    (setMultiplePage c2ctx ["foo/bar".toList]).2.length = 1 ∧
    (setMultiplePage c2ctx ["foo/bar".toList]).1 =
      [("null".toList, "foo/bar/init.js".toList)] := by
  refine ⟨by decide, by decide, by decide⟩

/-- C2 amended: a directory whose path does not match the `pages/<name>`
convention is *not* skipped: every directory (matching or not) contributes
exactly one template instantiation; a non-matching one gets the page name
`null` (rendered `"null"`, filename `null.html`) and contributes an
entry-map entry under the key `"null"` exactly when its `init.js` exists.
No error is raised. -/
theorem smp_nonmatching_amended (ctx : PageCtx) (entries : List (List Char))
    (e : List Char) (h : pageNameOf e = none) :
    (setMultiplePage ctx entries).2.length = entries.length ∧
    (setMultiplePage ctx [e]).1 =
      (if ctx.fsExists (entryFileOf e) then [("null".toList, entryFileOf e)] else []) ∧
    (setMultiplePage ctx [e]).2 = [mkPlugin ctx e] ∧
    (mkPlugin ctx e).filename =
      (if ctx.htmlPfx.isEmpty then [] else ctx.htmlPfx ++ ['/']) ++ "null.html".toList := by
  refine ⟨?_, ?_, ?_, ?_⟩
  · rw [setMultiplePage_snd, List.length_map]
  · by_cases hf : ctx.fsExists (entryFileOf e) <;>
      simp [setMultiplePage, smpGo, pageKey, h, jsKey, upsert, hf]
  · rw [setMultiplePage_snd] ; rfl
  · simp [mkPlugin, h, jsKey]

/-- C2 amended, witnessed at the concrete scenario of the counterexample. -/
theorem smp_nonmatching_amended_witness :
    pageNameOf "foo/bar".toList = none ∧
    ((setMultiplePage c2ctx ["foo/bar".toList]).2.length = ["foo/bar".toList].length ∧
     (setMultiplePage c2ctx ["foo/bar".toList]).1 =
       (if c2ctx.fsExists (entryFileOf "foo/bar".toList) then
         [("null".toList, entryFileOf "foo/bar".toList)] else []) ∧
     (setMultiplePage c2ctx ["foo/bar".toList]).2 = [mkPlugin c2ctx "foo/bar".toList] ∧
     (mkPlugin c2ctx "foo/bar".toList).filename =
       (if c2ctx.htmlPfx.isEmpty then [] else c2ctx.htmlPfx ++ ['/']) ++ "null.html".toList) :=
  ⟨by decide, smp_nonmatching_amended c2ctx ["foo/bar".toList] "foo/bar".toList (by decide)⟩

/-! ## C3 — `pathMapper` never returns a path unmodified -/

/-- The offline configuration of the C3 scenario. -/
def c3cfg : OfflineCfg :=
  { assetsPfx := "static".toList, htmlPfx := "html".toList, cdnUrl := [],
    serverUrl := "//now.qq.com".toList, domain := "example.com".toList,
    cdn := "cdn".toList, product := "prod".toList }

/-- C3 counterexample: `img/a.png` contains neither the markup prefix
(`html`) nor the static prefix (`static`), yet `pathMapper` does not return
it unmodified — it is joined under the server-relative base as
`now.qq.com/img/a.png`. -/
theorem pathMapper_neither_prefix_not_identity :
    containsSub c3cfg.htmlPfx "img/a.png".toList = false ∧
    containsSub c3cfg.assetsPfx "img/a.png".toList = false ∧
    pathMapper c3cfg "img/a.png".toList = "now.qq.com/img/a.png".toList ∧
    pathMapper c3cfg "img/a.png".toList ≠ "img/a.png".toList := by
  refine ⟨by decide, by decide, by decide, by decide⟩

/-- C3 amended: `pathMapper` strips the first occurrence of the markup
prefix if the path contains it, else the first occurrence of the static
prefix if the path contains it, and then *always* joins the result under the
server-relative base (`serverUrl` with its leading `//` removed) — a path
matching neither prefix is also placed under that base, at its original
relative location, rather than returned unmodified.  In every case the
result lives under the server host. -/
theorem pathMapper_amended (cfg : OfflineCfg) (host assetPath : List Char)
    (hs : cfg.serverUrl = '/' :: '/' :: host) (hne : host ≠ [])
    (hh : containsSub slashSlash host = false) (hlast : host.getLast? ≠ some '/') :
    (containsSub cfg.htmlPfx assetPath = true →
      pathMapper cfg assetPath = pathJoin host (replaceFirst cfg.htmlPfx [] assetPath)) ∧
    (containsSub cfg.htmlPfx assetPath = false →
      containsSub cfg.assetsPfx assetPath = true →
      pathMapper cfg assetPath = pathJoin host (replaceFirst cfg.assetsPfx [] assetPath)) ∧
    (containsSub cfg.htmlPfx assetPath = false →
      containsSub cfg.assetsPfx assetPath = false →
      pathMapper cfg assetPath = pathJoin host assetPath) ∧
    host <+: pathMapper cfg assetPath := by
  have hbase : replaceFirst ('/' :: '/' :: []) [] cfg.serverUrl = host := by
    rw [hs] ; exact replaceFirst_slashSlash
  refine ⟨?_, ?_, ?_, ?_⟩
  · intro h1 ; rw [pathMapper, hbase, if_pos h1]
  · intro h1 h2 ; rw [pathMapper, hbase, if_neg (by simp [h1]), if_pos h2]
  · intro h1 h2 ; rw [pathMapper, hbase, if_neg (by simp [h1]), if_neg (by simp [h2])]
  · rw [pathMapper, hbase]
    exact host_prefix_pathJoin _ hne hh hlast

/-- C3 amended, witnessed at the counterexample's concrete input. -/
theorem pathMapper_amended_witness :
    (c3cfg.serverUrl = '/' :: '/' :: "now.qq.com".toList ∧ "now.qq.com".toList ≠ [] ∧
     containsSub slashSlash "now.qq.com".toList = false ∧
     ("now.qq.com".toList).getLast? ≠ some '/') ∧
    ((containsSub c3cfg.htmlPfx "img/a.png".toList = true →
       pathMapper c3cfg "img/a.png".toList =
         pathJoin "now.qq.com".toList (replaceFirst c3cfg.htmlPfx [] "img/a.png".toList)) ∧
     (containsSub c3cfg.htmlPfx "img/a.png".toList = false →
       containsSub c3cfg.assetsPfx "img/a.png".toList = true →
       pathMapper c3cfg "img/a.png".toList =
         pathJoin "now.qq.com".toList (replaceFirst c3cfg.assetsPfx [] "img/a.png".toList)) ∧
     (containsSub c3cfg.htmlPfx "img/a.png".toList = false →
       containsSub c3cfg.assetsPfx "img/a.png".toList = false →
       pathMapper c3cfg "img/a.png".toList = pathJoin "now.qq.com".toList "img/a.png".toList) ∧
     "now.qq.com".toList <+: pathMapper c3cfg "img/a.png".toList) :=
  ⟨⟨by decide, by decide, by decide, by decide⟩,
    pathMapper_amended c3cfg "now.qq.com".toList "img/a.png".toList
      (by decide) (by decide) (by decide) (by decide)⟩

/-! ## C7 — OTHER files get only the business-asset substitution -/

/-- The offline configuration of the C7 scenario:
`cdn="cdn.example.com"`, `product="productX"`, `domain="static.example.com"`. -/
def c7cfg : OfflineCfg :=
  { assetsPfx := "static".toList, htmlPfx := "html".toList, cdnUrl := [],
    serverUrl := "//now.qq.com".toList, domain := "static.example.com".toList,
    cdn := "cdn.example.com".toList, product := "productX".toList }

/-- The bare OTHER content of the spec's C7 scenario. -/
def c7bare : List Char := "//cdn.example.com/productX/a.png?foo=1".toList

/-- What the spec's C7 scenario says the rewrite yields. -/
def c7specOut : List Char := "//static.example.com/a.png?foo=1".toList

/-- An OTHER asset path (contains neither configured prefix). -/
def c7otherPath : List Char := "img/a.png".toList

/-- The same reference, terminated by a quote as it appears inside real
content — this *is* rewritten. -/
def c7quoted : List Char := "src=\"//cdn.example.com/productX/a.png?foo=1\"".toList

def c7quotedOut : List Char := "src=\"//static.example.com/a.png?foo=1\"".toList

/-- C7 counterexample: the business-asset substitution regex requires the
reference to be terminated by a quote, backtick or closing paren; the bare
OTHER content `//cdn.example.com/productX/a.png?foo=1` has no terminator, so
the rewriter leaves it unchanged instead of producing
`//static.example.com/a.png?foo=1` as the claim's scenario states. -/
theorem offline_other_scenario_is_false :
    beforeAddBuffer c7cfg 0 c7bare c7otherPath = c7bare ∧
    beforeAddBuffer c7cfg 0 c7bare c7otherPath ≠ c7specOut := by
  refine ⟨by decide, by decide⟩

/-- C7 amended: for every file whose path does not contain the markup
prefix, the content rewriter applies only the business-asset domain
substitution — content without an occurrence of `//<cdn>/<product>/` is
returned entirely unchanged (no crossorigin/`?_bid=152`/integrity stripping
and no version injection happen) — and that substitution only rewrites
references terminated by a quote, backtick or closing paren: the scenario's
reference is rewritten to `//static.example.com/a.png?foo=1` only in its
quoted form, while the bare string of the spec's scenario is left unchanged. -/
theorem offline_other_amended (cfg : OfflineCfg) (now : Nat)
    (source assetPath : List Char)
    (h : containsSub cfg.htmlPfx assetPath = false) :
    beforeAddBuffer cfg now source assetPath = domainSub (bizBase cfg) cfg.domain source ∧
    (containsSub (subPre (bizBase cfg)) source = false →
      beforeAddBuffer cfg now source assetPath = source) ∧
    beforeAddBuffer c7cfg now c7quoted c7otherPath = c7quotedOut ∧
    beforeAddBuffer c7cfg now c7bare c7otherPath = c7bare := by
  have hmain : beforeAddBuffer cfg now source assetPath =
      domainSub (bizBase cfg) cfg.domain source := by
    rw [beforeAddBuffer, if_neg (by simp [h])]
  refine ⟨hmain, ?_, ?_, ?_⟩
  · intro hno ; rw [hmain, domainSub_eq_self hno]
  · rw [beforeAddBuffer, if_neg (by decide)] ; decide
  · rw [beforeAddBuffer, if_neg (by decide)] ; decide

/-- C7 amended, witnessed at the scenario's concrete configuration. -/
theorem offline_other_amended_witness :
    containsSub c7cfg.htmlPfx c7otherPath = false ∧
    (beforeAddBuffer c7cfg 5 c7bare c7otherPath =
       domainSub (bizBase c7cfg) c7cfg.domain c7bare ∧
     (containsSub (subPre (bizBase c7cfg)) c7bare = false →
       beforeAddBuffer c7cfg 5 c7bare c7otherPath = c7bare) ∧
     beforeAddBuffer c7cfg 5 c7quoted c7otherPath = c7quotedOut ∧
     beforeAddBuffer c7cfg 5 c7bare c7otherPath = c7bare) :=
  ⟨by decide, offline_other_amended c7cfg 5 c7bare c7otherPath (by decide)⟩

end BuilderCore
